import Mathlib

/-!
Verification development for the legendary-data-pipeline pricing core:
the Snapshot Normalizer (`02_normalize_scryfall_prices.js`), the Daily
Price Resolver (`03_build_market_price_daily.js`) and the Sale-Comp
Rollup (`10_rollup_market_values_daily.mjs`), shallowly embedded as pure
Lean functions over explicit table states.
-/

namespace Pipeline

/-- The Scryfall `payload->'prices'` document: the five vendor price
fields read by the normalizer, each a nullable text value
(`prices->>'usd'` etc.). -/
structure Prices where
  usd : Option String
  usd_foil : Option String
  usd_etched : Option String
  eur : Option String
  tix : Option String
deriving DecidableEq, Repr

/-- A row of `public.market_price_snapshots`.  The raw audit payload is
the `jsonb_build_object('prices', prices, 'key', <field>)` pair built by
the normalizer: the source prices document plus the originating field
name. -/
structure Snapshot where
  market_item_id : Nat
  source : String
  as_of_date : Int
  currency : String
  price_type : String
  condition : Option String
  value_cents : Int
  raw : Prices × String
deriving DecidableEq, Repr

/-- `CASE s.source ... END` in the resolver's `ORDER BY`: the fixed
source-priority table; sources not listed rank 99 (last). -/
def sourceRank : String → Nat
  | "tcgplayer" => 10
  | "scryfall" => 20
  | "cardmarket" => 30
  | "pricecharting" => 40
  | "ebay" => 50
  | "amazon" => 60
  | _ => 99

/-- `CASE s.price_type ... END` in the resolver's `ORDER BY`: the fixed
price-type priority table; tags not listed rank 90. -/
def priceTypeRank : String → Nat
  | "market" => 10
  | "trend" => 12
  | "mid" => 14
  | "avg_7d" => 16
  | "avg_30d" => 18
  | "low" => 22
  | "high" => 24
  | "loose" => 30
  | "cib" => 32
  | "new" => 34
  | "graded" => 36
  | "foil" => 60
  | "etched" => 62
  | "tix" => 80
  | _ => 90

/-- The list of sources named in the resolver's priority `CASE`. -/
def knownSources : List String :=
  ["tcgplayer", "scryfall", "cardmarket", "pricecharting", "ebay", "amazon"]

/-- `a` strictly precedes `b` in the resolver's `ORDER BY` clause:
source rank ascending, then price-type rank ascending, then
`value_cents` descending. -/
def precedes (a b : Snapshot) : Bool :=
  sourceRank a.source < sourceRank b.source ||
    (sourceRank a.source == sourceRank b.source &&
      (priceTypeRank a.price_type < priceTypeRank b.price_type ||
        (priceTypeRank a.price_type == priceTypeRank b.price_type &&
          b.value_cents < a.value_cents)))

/-- Keep the earlier snapshot unless the later one strictly precedes it:
one step of selecting the `ROW_NUMBER() = 1` row, with ties between
`ORDER BY` keys resolved by presentation order (SQL leaves them
unspecified; the list order models the arbitrary underlying row
order). -/
def pickBetter (a b : Snapshot) : Snapshot :=
  if precedes b a then b else a

/-- The `rn = 1` snapshot of one partition's candidate list: the first
snapshot minimal for the resolver's `ORDER BY`. -/
def resolveWinner : List Snapshot → Option Snapshot
  | [] => none
  | s :: rest => some (rest.foldl pickBetter s)

/-- The resolver's invocation parameters: `--currency` (default USD),
`--date` (default today), `--all-dates`, `--since`, `--until`. -/
structure ScopeCfg where
  currency : String
  allDates : Bool
  asOfDate : Int
  since : Option Int
  untilDate : Option Int
deriving DecidableEq, Repr

/-- The `WHERE` clause assembled from `whereParts`: the currency filter
always applies; without `--all-dates` the single `as_of_date = $date`
filter applies, otherwise the optional inclusive `since`/`until` bounds
apply. -/
def inScope (cfg : ScopeCfg) (s : Snapshot) : Bool :=
  s.currency == cfg.currency &&
    (if cfg.allDates then
      (match cfg.since with
        | none => true
        | some lo => lo ≤ s.as_of_date) &&
      (match cfg.untilDate with
        | none => true
        | some hi => s.as_of_date ≤ hi)
    else s.as_of_date == cfg.asOfDate)

/-- A `(market_item_id, currency, as_of_date)` partition key of the
resolver's `ROW_NUMBER` window. -/
structure DayKey where
  market_item_id : Nat
  currency : String
  as_of_date : Int
deriving DecidableEq, Repr

/-- Membership of a snapshot in the partition
`PARTITION BY s.market_item_id, s.currency, s.as_of_date`. -/
def inPartition (k : DayKey) (s : Snapshot) : Bool :=
  s.market_item_id == k.market_item_id && s.currency == k.currency &&
    s.as_of_date == k.as_of_date

/-- The candidate snapshots the resolver ranks for one partition key:
the table rows passing the `WHERE` scope filter that lie in the key's
partition. -/
def candidatesFor (cfg : ScopeCfg) (snaps : List Snapshot) (k : DayKey) :
    List Snapshot :=
  snaps.filter (fun s => inScope cfg s && inPartition k s)

/-- The `rn = 1` snapshot for one partition key, if any candidate
exists. -/
def winnerFor (cfg : ScopeCfg) (snaps : List Snapshot) (k : DayKey) :
    Option Snapshot :=
  resolveWinner (candidatesFor cfg snaps k)

/-- One `sources_used` audit entry: source, price type, condition and
value of the winning snapshot. -/
structure SourceUsed where
  source : String
  price_type : String
  condition : Option String
  value_cents : Int
deriving DecidableEq, Repr

/-- A row of `public.market_price_daily` as produced by the resolver's
`best` CTE and upsert (the `updated_at` timestamp is omitted). -/
structure DailyRow where
  market_item_id : Nat
  as_of_date : Int
  currency : String
  value_cents : Int
  confidence : Int
  sources_used : List SourceUsed
  method : String
deriving DecidableEq, Repr

/-- The Daily Price row the resolver emits for one partition key: the
winner's value, the fixed confidence 70, a one-element `sources_used`
audit list, and the fixed method tag. -/
def dailyRowFor (cfg : ScopeCfg) (snaps : List Snapshot) (k : DayKey) :
    Option DailyRow :=
  (winnerFor cfg snaps k).map (fun w =>
    { market_item_id := k.market_item_id
      as_of_date := k.as_of_date
      currency := k.currency
      value_cents := w.value_cents
      confidence := 70
      sources_used := [⟨w.source, w.price_type, w.condition, w.value_cents⟩]
      method := "priority_best_of_day" })

/-- `w` wins over `s` under the ranking policy: strictly smaller
lexicographic `(source-rank, price-type-rank)` pair, or equal ranks and
a value at least as large. -/
def winsOver (w s : Snapshot) : Prop :=
  sourceRank w.source < sourceRank s.source ∨
    (sourceRank w.source = sourceRank s.source ∧
      (priceTypeRank w.price_type < priceTypeRank s.price_type ∨
        (priceTypeRank w.price_type = priceTypeRank s.price_type ∧
          s.value_cents ≤ w.value_cents)))

instance (w s : Snapshot) : Decidable (winsOver w s) := by
  unfold winsOver
  infer_instance

/-- Characters kept by `regexp_replace(x, '[^0-9.\-]', '', 'g')`:
digits, the decimal point and the minus sign. -/
def keepChar (c : Char) : Bool :=
  c.isDigit || c == '.' || c == '-'

/-- `regexp_replace(x, '[^0-9.\-]', '', 'g')`: drop every character that
is not a digit, a dot or a minus. -/
def stripNonNumeric (s : String) : String :=
  String.mk (s.data.filter keepChar)

/-- Decimal digit string to a natural number (most significant digit
first). -/
def digitsToNat (l : List Char) : Nat :=
  l.foldl (fun n c => 10 * n + (c.toNat - Char.toNat '0')) 0

instance {ε α : Type} [DecidableEq ε] [DecidableEq α] :
    DecidableEq (Except ε α) := fun a b =>
  match a, b with
  | .error e1, .error e2 =>
    if h : e1 = e2 then .isTrue (by rw [h])
    else .isFalse (fun hc => h (Except.error.inj hc))
  | .error _, .ok _ => .isFalse (fun hc => Except.noConfusion hc)
  | .ok _, .error _ => .isFalse (fun hc => Except.noConfusion hc)
  | .ok a1, .ok a2 =>
    if h : a1 = a2 then .isTrue (by rw [h])
    else .isFalse (fun hc => h (Except.ok.inj hc))

/-- An exact decimal numeral, the value of a Postgres numeric literal:
`±(ip + fp / 10 ^ fl)`. -/
structure DecNum where
  neg : Bool
  ip : Nat
  fp : Nat
  fl : Nat
deriving DecidableEq, Repr

/-- The rational value of a decimal numeral. -/
def decVal (d : DecNum) : ℚ :=
  (if d.neg then -1 else 1) * ((d.ip : ℚ) + (d.fp : ℚ) / (10 : ℚ) ^ d.fl)

/-- Unsigned Postgres numeric literal over the post-strip alphabet: an
integer part and an optional fractional part separated by one dot, with
at least one digit overall.  `none` means the `::numeric` cast would
raise. -/
def parseUnsigned (l : List Char) : Option DecNum :=
  match l.span (fun c => c != '.') with
  | (intPart, []) =>
    if intPart ≠ [] ∧ intPart.all Char.isDigit then
      some ⟨false, digitsToNat intPart, 0, 0⟩
    else none
  | (intPart, _ :: fracPart) =>
    if (intPart ≠ [] ∨ fracPart ≠ []) ∧ intPart.all Char.isDigit ∧
        fracPart.all Char.isDigit then
      some ⟨false, digitsToNat intPart, digitsToNat fracPart, fracPart.length⟩
    else none

/-- Postgres numeric literal with an optional leading minus. -/
def parseNumeric : List Char → Option DecNum
  | '-' :: rest => (parseUnsigned rest).map (fun d => { d with neg := true })
  | l => parseUnsigned l

/-- `ROUND(q)` on Postgres numerics: round to the nearest integer, ties
away from zero. -/
def roundHalfAway (q : ℚ) : Int :=
  if 0 ≤ q then ⌊q + 1 / 2⌋ else -⌊-q + 1 / 2⌋

/-- `ROUND(value * 100)::int` for the exact decimal `value`, computed in
integer arithmetic: the magnitude `|value| * 100` is the exact fraction
`100 * (ip * 10 ^ fl + fp) / 10 ^ fl`, and adding half the denominator
before a floor division rounds it half-up; the sign is then restored,
giving ties-away-from-zero.  `roundCents_eq_roundHalfAway` proves this
equal to `roundHalfAway (decVal d * 100)`. -/
def roundCents (d : DecNum) : Int :=
  let den := 10 ^ d.fl
  let mag := (2 * (100 * (d.ip * den + d.fp)) + den) / (2 * den)
  if d.neg then -(mag : Int) else (mag : Int)

/-- One `VALUES` branch of the normalizer's CTE for one field: a missing
field or a field stripping to the empty string yields NULL (`.ok none`);
text stripping to a valid numeric literal yields
`ROUND(value * 100)::int`; text stripping to a non-empty non-numeric
string makes the `::numeric` cast raise (`.error`), aborting the whole
statement. -/
def fieldCents : Option String → Except Unit (Option Int)
  | none => .ok none
  | some s =>
    let stripped := stripNonNumeric s
    if stripped.data = [] then .ok none
    else
      match parseNumeric stripped.data with
      | some d => .ok (some (roundCents d))
      | none => .error ()

/-- The vendor-specific static configuration mapping one prices-document
field to its `(currency, price_type)` pair. -/
structure FieldSpec where
  key : String
  currency : String
  price_type : String
deriving DecidableEq, Repr

/-- The five `VALUES` branches of the normalizer's CTE, in source
order. -/
def fieldSpecs : List FieldSpec :=
  [⟨"usd", "USD", "market"⟩,
   ⟨"usd_foil", "USD", "foil"⟩,
   ⟨"usd_etched", "USD", "etched"⟩,
   ⟨"eur", "EUR", "market"⟩,
   ⟨"tix", "USD", "tix"⟩]

/-- `prices->>'<key>'` for the five field names read by the
normalizer. -/
def getField (p : Prices) (key : String) : Option String :=
  if key = "usd" then p.usd
  else if key = "usd_foil" then p.usd_foil
  else if key = "usd_etched" then p.usd_etched
  else if key = "eur" then p.eur
  else if key = "tix" then p.tix
  else none

/-- One row of the normalizer's `src` CTE: a market item joined to its
Scryfall prices document. -/
structure SrcItem where
  market_item_id : Nat
  prices : Prices
deriving DecidableEq, Repr

/-- The snapshot row built for one present field: source `'scryfall'`,
the run's `as_of_date`, the field's static `(currency, price_type)`,
NULL condition, and the raw audit payload. -/
def mkRow (d : Int) (it : SrcItem) (sp : FieldSpec) (v : Int) : Snapshot :=
  { market_item_id := it.market_item_id
    source := "scryfall"
    as_of_date := d
    currency := sp.currency
    price_type := sp.price_type
    condition := none
    value_cents := v
    raw := (it.prices, sp.key) }

/-- The snapshot row one field of one source item contributes, after the
`WHERE v.value_cents IS NOT NULL AND v.value_cents > 0` filter. -/
def fieldRow (d : Int) (it : SrcItem) (sp : FieldSpec) :
    Except Unit (Option Snapshot) :=
  match fieldCents (getField it.prices sp.key) with
  | .error e => .error e
  | .ok none => .ok none
  | .ok (some v) => .ok (if 0 < v then some (mkRow d it sp v) else none)

/-- The rows of the `rows` CTE contributed by one source item, over a
given list of field specifications. -/
def rowsForFields (d : Int) (it : SrcItem) :
    List FieldSpec → Except Unit (List Snapshot)
  | [] => .ok []
  | sp :: rest =>
    match fieldRow d it sp, rowsForFields d it rest with
    | .error e, _ => .error e
    | .ok _, .error e => .error e
    | .ok o, .ok rs => .ok (o.toList ++ rs)

/-- All rows of the `rows` CTE contributed by one source item. -/
def rowsForItem (d : Int) (it : SrcItem) : Except Unit (List Snapshot) :=
  rowsForFields d it fieldSpecs

/-- The whole computed batch of the `rows` CTE: all source items'
rows.  An error anywhere aborts the statement. -/
def buildRows (d : Int) : List SrcItem → Except Unit (List Snapshot)
  | [] => .ok []
  | it :: rest =>
    match rowsForItem d it, buildRows d rest with
    | .error e, _ => .error e
    | .ok _, .error e => .error e
    | .ok rs, .ok rest' => .ok (rs ++ rest')

/-- The identity key of a snapshot row:
`(market_item_id, source, as_of_date, currency, price_type,
condition)`. -/
structure SnapKey where
  market_item_id : Nat
  source : String
  as_of_date : Int
  currency : String
  price_type : String
  condition : Option String
deriving DecidableEq, Repr

def keyOf (s : Snapshot) : SnapKey :=
  ⟨s.market_item_id, s.source, s.as_of_date, s.currency, s.price_type,
    s.condition⟩

def sameKey (a b : Snapshot) : Bool :=
  keyOf a == keyOf b

/-- The table has at most one row per identity key. -/
def keysNodup (t : List Snapshot) : Prop :=
  (t.map keyOf).Nodup

instance (t : List Snapshot) : Decidable (keysNodup t) := by
  unfold keysNodup
  infer_instance

/-- The normalizer's UPDATE statement: every existing table row whose
identity key matches a batch row takes that batch row's freshly computed
`value_cents` and `raw`. -/
def updatePhase (t batch : List Snapshot) : List Snapshot :=
  t.map (fun r =>
    match batch.find? (fun b => sameKey b r) with
    | some b => { r with value_cents := b.value_cents, raw := b.raw }
    | none => r)

/-- The rows the INSERT statement adds: the batch rows whose identity
key has no row in the table (`WHERE NOT EXISTS (...)`). -/
def insertRows (t batch : List Snapshot) : List Snapshot :=
  batch.filter (fun b => !(t.any (fun r => sameKey r b)))

/-- One committed normalizer run over table `t` with computed batch
`batch`: the UPDATE statement completes first, then the INSERT
statement's NOT-EXISTS check runs against the updated table. -/
def normalizeRun (t batch : List Snapshot) : List Snapshot :=
  updatePhase t batch ++ insertRows (updatePhase t batch) batch

/-- The normalizer's `main`: BEGIN, run the update and insert statements
against source `src` for date `d`, COMMIT; on any statement failure
ROLLBACK and exit 1.  `failUpd`/`failIns` model the store raising on the
respective statement (constraint violation, connectivity loss); a batch
whose `rows` CTE raises (cf. `fieldCents`) fails the first statement.
Returns the final visible table and the process exit code. -/
def runNormalizer (t : List Snapshot) (src : List SrcItem) (d : Int)
    (failUpd failIns : Bool) : List Snapshot × Nat :=
  match buildRows d src with
  | .error _ => (t, 1)
  | .ok batch =>
    if failUpd then (t, 1)
    else if failIns then (t, 1)
    else (normalizeRun t batch, 0)

/-- A row of `public.market_sales_comps` (the fields the rollup
reads). -/
structure Sale where
  card_key : String
  grade : String
  sold_at : Int
  sold_price_usd : ℚ
deriving DecidableEq, Repr

/-- `percentile_cont(p) WITHIN GROUP (ORDER BY v)`: the continuous
interpolation percentile of the multiset of values.  With the values
sorted ascending and `h = p * (n - 1)`, the result interpolates between
the values at positions `⌊h⌋` and `⌊h⌋ + 1`. -/
def percentileCont (p : ℚ) (vals : List ℚ) : Option ℚ :=
  match vals with
  | [] => none
  | _ :: _ =>
    let sorted := List.insertionSort (· ≤ ·) vals
    let h := p * ((vals.length : ℚ) - 1)
    let lo := sorted.getD (⌊h⌋).toNat 0
    some (if h - ⌊h⌋ = 0 then lo
      else lo + (h - ⌊h⌋) * (sorted.getD ((⌊h⌋).toNat + 1) 0 - lo))

/-- The `::numeric(12,2)` cast: round to two decimal places, ties away
from zero. -/
def round2 (q : ℚ) : ℚ :=
  (roundHalfAway (q * 100) : ℚ) / 100

/-- One step of `ORDER BY r.sold_at DESC LIMIT 1`: keep the earlier row
unless the later row has a strictly larger timestamp, so ties keep the
first row in presentation order (SQL leaves the choice among equal
timestamps unspecified; the list order models the underlying row
order). -/
def laterSale (a b : Sale) : Sale :=
  if a.sold_at < b.sold_at then b else a

/-- The `last_sale_usd` correlated subquery's selected row: the first
row with maximal `sold_at` in presentation order. -/
def lastSaleOf : List Sale → Option Sale
  | [] => none
  | s :: rest => some (rest.foldl laterSale s)

/-- The confidence `CASE`: `cnt >= 10` gives A, `cnt >= 5` gives B,
`cnt >= 2` gives C, otherwise D. -/
def confidenceGrade (cnt : Nat) : String :=
  if 10 ≤ cnt then "A" else if 5 ≤ cnt then "B"
  else if 2 ≤ cnt then "C" else "D"

/-- Ordinal position of a confidence grade (lowest first), for stating
monotonicity. -/
def gradeOrd (g : String) : Nat :=
  if g = "A" then 3 else if g = "B" then 2 else if g = "C" then 1 else 0

/-- A row of `public.market_values_daily` as produced by the rollup's
INSERT (the `as_of_date` column, `CURRENT_DATE`, is omitted). -/
structure RollupRow where
  card_key : String
  grade : String
  market_value_usd : ℚ
  range_low_usd : ℚ
  range_high_usd : ℚ
  last_sale_usd : ℚ
  last_sale_at : Int
  sales_count_180d : Nat
  confidence : String
deriving DecidableEq, Repr

/-- The row the rollup computes for one non-empty `(card_key, grade)`
group of in-window sales; an empty group produces no row. -/
def rollupGroup : List Sale → Option RollupRow
  | [] => none
  | s :: rest =>
    let prices := (s :: rest).map (fun x => x.sold_price_usd)
    some
      { card_key := s.card_key
        grade := s.grade
        market_value_usd := round2 ((percentileCont (1 / 2) prices).getD 0)
        range_low_usd := round2 ((percentileCont (1 / 4) prices).getD 0)
        range_high_usd := round2 ((percentileCont (3 / 4) prices).getD 0)
        last_sale_usd :=
          round2 (((lastSaleOf (s :: rest)).map
            (fun x => x.sold_price_usd)).getD 0)
        last_sale_at := rest.foldl (fun m x => max m x.sold_at) s.sold_at
        sales_count_180d := (s :: rest).length
        confidence := confidenceGrade (s :: rest).length }

/-- The `recent` CTE: sales with `sold_at >= now() - interval '180
days'`, with `cutoff` standing for `now() - 180 days`. -/
def recentSales (cutoff : Int) (sales : List Sale) : List Sale :=
  sales.filter (fun s => cutoff ≤ s.sold_at)

/-- The sales of one `GROUP BY card_key, grade` group. -/
def groupSales (ck gr : String) (sales : List Sale) : List Sale :=
  sales.filter (fun s => s.card_key == ck && s.grade == gr)

/-- The rollup row emitted for one `(card_key, grade)` group over the
transaction table. -/
def rollupFor (cutoff : Int) (ck gr : String) (sales : List Sale) :
    Option RollupRow :=
  rollupGroup (groupSales ck gr (recentSales cutoff sales))

/-- An empty prices document, for concrete examples. -/
def noPrices : Prices :=
  ⟨none, none, none, none, none⟩

/-- A snapshot with NULL condition and a fixed raw payload, for concrete
examples. -/
def mkSnap (item : Nat) (src : String) (d : Int) (cur pt : String)
    (v : Int) : Snapshot :=
  ⟨item, src, d, cur, pt, none, v, (noPrices, "usd")⟩

/-- Single-date USD scope (date 0), for concrete examples. -/
def cfgUSD : ScopeCfg :=
  ⟨"USD", false, 0, none, none⟩

/-- Partition key of item 1, USD, date 0, for concrete examples. -/
def keyW : DayKey :=
  ⟨1, "USD", 0⟩

/-- A sale record, for concrete examples. -/
def mkSale (ck gr : String) (t : Int) (p : ℚ) : Sale :=
  ⟨ck, gr, t, p⟩

/-- A concrete Scryfall market snapshot, for witnesses. -/
def snapSA : Snapshot :=
  mkSnap 1 "scryfall" 0 "USD" "market" 1234

/-- The identity key of the row a given field specification would
contribute for one source item. -/
def specKey (d : Int) (it : SrcItem) (sp : FieldSpec) : SnapKey :=
  ⟨it.market_item_id, "scryfall", d, sp.currency, sp.price_type, none⟩

/-- A concrete prices document with only the usd field, for witnesses. -/
def pricesW : Prices :=
  ⟨some "12.34", none, none, none, none⟩

/-- A concrete one-item source table, for witnesses. -/
def srcW : List SrcItem :=
  [⟨1, pricesW⟩]

/-- The batch the normalizer computes from `srcW` at date 0. -/
def batchW : List Snapshot :=
  [⟨1, "scryfall", 0, "USD", "market", none, 1234, (pricesW, "usd")⟩]

theorem winsOver_of_not_precedes {w s : Snapshot}
    (h : precedes s w = false) : winsOver w s := by
  simp only [precedes, Bool.or_eq_false_iff, Bool.and_eq_false_iff,
    decide_eq_false_iff_not, beq_eq_false_iff_ne] at h
  unfold winsOver
  omega

theorem precedes_irrefl (a : Snapshot) : precedes a a = false := by
  simp [precedes]

theorem precedes_trans {a b c : Snapshot} (h1 : precedes a b = true)
    (h2 : precedes b c = true) : precedes a c = true := by
  simp only [precedes, Bool.or_eq_true, Bool.and_eq_true, decide_eq_true_eq,
    beq_iff_eq] at h1 h2 ⊢
  omega

theorem precedes_asymm {a b : Snapshot} (h : precedes a b = true) :
    precedes b a = false := by
  simp only [precedes, Bool.or_eq_true, Bool.and_eq_true, decide_eq_true_eq,
    beq_iff_eq, Bool.or_eq_false_iff, Bool.and_eq_false_iff,
    decide_eq_false_iff_not, beq_eq_false_iff_ne] at h ⊢
  omega

/-- If neither of two snapshots precedes the other, their three `ORDER
BY` keys coincide. -/
theorem precedes_total {a b : Snapshot} (h1 : precedes a b = false)
    (h2 : precedes b a = false) :
    sourceRank a.source = sourceRank b.source ∧
      priceTypeRank a.price_type = priceTypeRank b.price_type ∧
      a.value_cents = b.value_cents := by
  simp only [precedes, Bool.or_eq_false_iff, Bool.and_eq_false_iff,
    decide_eq_false_iff_not, beq_eq_false_iff_ne] at h1 h2
  omega

/-- If `b` does not precede `s` then anything `b` precedes, `s` also
precedes (the ordering is a total preorder on the three keys). -/
theorem precedes_trans_left {s b w : Snapshot} (h1 : precedes b s = false)
    (h2 : precedes b w = true) : precedes s w = true := by
  simp only [precedes, Bool.or_eq_true, Bool.and_eq_true, decide_eq_true_eq,
    beq_iff_eq, Bool.or_eq_false_iff, Bool.and_eq_false_iff,
    decide_eq_false_iff_not, beq_eq_false_iff_ne] at h1 h2 ⊢
  omega

theorem pickBetter_pos {a b : Snapshot} (h : precedes b a = true) :
    pickBetter a b = b := by
  simp [pickBetter, h]

theorem pickBetter_neg {a b : Snapshot} (h : precedes b a = false) :
    pickBetter a b = a := by
  simp [pickBetter, h]

theorem foldl_pickBetter_mem (rest : List Snapshot) (s : Snapshot) :
    rest.foldl pickBetter s = s ∨ rest.foldl pickBetter s ∈ rest := by
  induction rest generalizing s with
  | nil => exact Or.inl rfl
  | cons b rest ih =>
    rw [List.foldl_cons]
    rcases hbs : precedes b s with _ | _
    · rw [pickBetter_neg hbs]
      rcases ih s with h | h
      · exact Or.inl h
      · exact Or.inr (List.mem_cons_of_mem b h)
    · rw [pickBetter_pos hbs]
      rcases ih b with h | h
      · rw [h]
        exact Or.inr (List.mem_cons_self b rest)
      · exact Or.inr (List.mem_cons_of_mem b h)

theorem foldl_pickBetter_min (rest : List Snapshot) (s x : Snapshot)
    (hx : x = s ∨ x ∈ rest) :
    precedes x (rest.foldl pickBetter s) = false := by
  induction rest generalizing s x with
  | nil =>
    rcases hx with rfl | h
    · exact precedes_irrefl x
    · cases h
  | cons b rest ih =>
    rw [List.foldl_cons]
    rcases hx with rfl | hx
    · rcases hbs : precedes b x with _ | _
      · rw [pickBetter_neg hbs]
        exact ih x x (Or.inl rfl)
      · rw [pickBetter_pos hbs]
        have hpb : precedes b (rest.foldl pickBetter b) = false := ih b b (Or.inl rfl)
        by_contra hcon
        rw [Bool.not_eq_false] at hcon
        rw [precedes_trans hbs hcon] at hpb
        cases hpb
    · rcases List.mem_cons.mp hx with rfl | hx
      · rcases hbs : precedes x s with _ | _
        · rw [pickBetter_neg hbs]
          have hps : precedes s (rest.foldl pickBetter s) = false := ih s s (Or.inl rfl)
          by_contra hcon
          rw [Bool.not_eq_false] at hcon
          rw [precedes_trans_left hbs hcon] at hps
          cases hps
        · rw [pickBetter_pos hbs]
          exact ih x x (Or.inl rfl)
      · exact ih (pickBetter s b) x (Or.inr hx)

/-- The selected winner belongs to the candidate list and no candidate
strictly precedes it in the resolver's ordering. -/
theorem resolveWinner_spec {l : List Snapshot} {w : Snapshot}
    (h : resolveWinner l = some w) :
    w ∈ l ∧ ∀ x ∈ l, precedes x w = false := by
  match l, h with
  | s :: rest, h =>
    have hw : rest.foldl pickBetter s = w := by
      simpa [resolveWinner] using h
    constructor
    · rcases foldl_pickBetter_mem rest s with h' | h'
      · rw [hw] at h'
        rw [h']
        exact List.mem_cons_self s rest
      · rw [hw] at h'
        exact List.mem_cons_of_mem s h'
    · intro x hx
      rw [← hw]
      exact foldl_pickBetter_min rest s x (by
        rcases List.mem_cons.mp hx with rfl | hx
        · exact Or.inl rfl
        · exact Or.inr hx)

/-- A source string not named in the priority `CASE` falls through to
rank 99. -/
theorem sourceRank_eq_of_not_known {src : String} (h : src ∉ knownSources) :
    sourceRank src = 99 := by
  simp only [knownSources, List.mem_cons, List.not_mem_nil, or_false,
    not_or] at h
  obtain ⟨h1, h2, h3, h4, h5, h6⟩ := h
  unfold sourceRank
  split <;> simp_all

theorem precedes_of_source_lt {a b : Snapshot}
    (h : sourceRank a.source < sourceRank b.source) : precedes a b = true := by
  simp only [precedes, Bool.or_eq_true, Bool.and_eq_true, decide_eq_true_eq,
    beq_iff_eq]
  omega

theorem precedes_of_value_gt {a b : Snapshot}
    (hs : sourceRank a.source = sourceRank b.source)
    (hp : priceTypeRank a.price_type = priceTypeRank b.price_type)
    (hv : b.value_cents < a.value_cents) : precedes a b = true := by
  simp only [precedes, Bool.or_eq_true, Bool.and_eq_true, decide_eq_true_eq,
    beq_iff_eq]
  omega

theorem resolveWinner_pair (a b : Snapshot) :
    resolveWinner [a, b] = some (pickBetter a b) :=
  rfl

theorem resolveWinner_pair_left {a b : Snapshot} (h : precedes a b = true) :
    resolveWinner [a, b] = some a ∧ resolveWinner [b, a] = some a := by
  rw [resolveWinner_pair, resolveWinner_pair, pickBetter_neg (precedes_asymm h),
    pickBetter_pos h]
  exact ⟨rfl, rfl⟩

/-- C1: For every (item, currency, date) key with at least one snapshot
in scope, the Daily Price Resolver selects as winner a candidate that
wins over every candidate of that key — lexicographically smallest
(source-rank, price-type-rank) pair, with unknown sources ranking
strictly after every known source, and the numerically larger value on
equal ranks; in particular, of two snapshots the one with the
strictly-higher-priority source wins regardless of the values, and of
two snapshots with equal source and price-type ranks the one with the
larger value wins, in either presentation order. -/
theorem C1_resolver_ranking_policy (cfg : ScopeCfg) (snaps : List Snapshot)
    (k : DayKey) (w : Snapshot) (h : winnerFor cfg snaps k = some w) :
    (w ∈ candidatesFor cfg snaps k ∧
      ∀ s ∈ candidatesFor cfg snaps k, winsOver w s) ∧
    (∀ src, src ∉ knownSources → ∀ ks ∈ knownSources,
      sourceRank ks < sourceRank src) ∧
    (∀ a b : Snapshot, sourceRank a.source < sourceRank b.source →
      resolveWinner [a, b] = some a ∧ resolveWinner [b, a] = some a) ∧
    (∀ a b : Snapshot, sourceRank a.source = sourceRank b.source →
      priceTypeRank a.price_type = priceTypeRank b.price_type →
      b.value_cents < a.value_cents →
      resolveWinner [a, b] = some a ∧ resolveWinner [b, a] = some a) := by
  refine ⟨?_, ?_, ?_, ?_⟩
  · obtain ⟨hmem, hmin⟩ := resolveWinner_spec h
    exact ⟨hmem, fun s hs => winsOver_of_not_precedes (hmin s hs)⟩
  · intro src hsrc ks hks
    rw [sourceRank_eq_of_not_known hsrc]
    fin_cases hks <;> decide
  · intro a b hab
    exact resolveWinner_pair_left (precedes_of_source_lt hab)
  · intro a b hs hp hv
    exact resolveWinner_pair_left (precedes_of_value_gt hs hp hv)

/-- Witness for C1 at the concrete one-snapshot scope
`cfgUSD`/`keyW`/`snapSA`. -/
theorem C1_resolver_ranking_policy_witness :
    (snapSA ∈ candidatesFor cfgUSD [snapSA] keyW ∧
      ∀ s ∈ candidatesFor cfgUSD [snapSA] keyW, winsOver snapSA s) ∧
    (∀ src, src ∉ knownSources → ∀ ks ∈ knownSources,
      sourceRank ks < sourceRank src) ∧
    (∀ a b : Snapshot, sourceRank a.source < sourceRank b.source →
      resolveWinner [a, b] = some a ∧ resolveWinner [b, a] = some a) ∧
    (∀ a b : Snapshot, sourceRank a.source = sourceRank b.source →
      priceTypeRank a.price_type = priceTypeRank b.price_type →
      b.value_cents < a.value_cents →
      resolveWinner [a, b] = some a ∧ resolveWinner [b, a] = some a) :=
  C1_resolver_ranking_policy cfgUSD [snapSA] keyW snapSA (by decide)

theorem resolveWinner_eq_none {l : List Snapshot} :
    resolveWinner l = none ↔ l = [] := by
  cases l <;> simp [resolveWinner]

/-- C3 counterexample: two snapshots that agree on source rank (both
sources unknown), price-type rank and value, but differ in source;
presenting the same snapshot set in the two possible row orders makes
the resolver select different winners. -/
theorem C3_counterexample :
    ([mkSnap 1 "foo" 0 "USD" "market" 100,
        mkSnap 1 "bar" 0 "USD" "market" 100] : List Snapshot).Perm
      [mkSnap 1 "bar" 0 "USD" "market" 100,
        mkSnap 1 "foo" 0 "USD" "market" 100] ∧
    winnerFor cfgUSD
        [mkSnap 1 "foo" 0 "USD" "market" 100,
          mkSnap 1 "bar" 0 "USD" "market" 100] keyW ≠
      winnerFor cfgUSD
        [mkSnap 1 "bar" 0 "USD" "market" 100,
          mkSnap 1 "foo" 0 "USD" "market" 100] keyW :=
  ⟨List.Perm.swap _ _ _, by decide⟩

/-- C3 (amended): for a fixed snapshot set for one (item, date,
currency) key the resolver selects the same winner regardless of input
row order, provided no two distinct snapshots of the set agree
simultaneously on source rank, price-type rank and value; when two
distinct snapshots tie on all three `ORDER BY` keys the selected winner
depends on the presentation order. -/
theorem C3_resolver_order_independence (cfg : ScopeCfg)
    (snaps snaps' : List Snapshot) (k : DayKey) (hperm : snaps.Perm snaps')
    (huniq : ∀ a ∈ snaps, ∀ b ∈ snaps,
      sourceRank a.source = sourceRank b.source →
      priceTypeRank a.price_type = priceTypeRank b.price_type →
      a.value_cents = b.value_cents → a = b) :
    winnerFor cfg snaps k = winnerFor cfg snaps' k := by
  have hpc : (candidatesFor cfg snaps k).Perm (candidatesFor cfg snaps' k) :=
    hperm.filter _
  rcases hw : winnerFor cfg snaps k with _ | w
  · have hc : candidatesFor cfg snaps k = [] := resolveWinner_eq_none.mp hw
    rw [hc] at hpc
    have hc' : candidatesFor cfg snaps' k = [] := hpc.symm.eq_nil
    unfold winnerFor
    rw [hc']
    rfl
  · rcases hw' : winnerFor cfg snaps' k with _ | w'
    · have hc' : candidatesFor cfg snaps' k = [] := resolveWinner_eq_none.mp hw'
      rw [hc'] at hpc
      have hc : candidatesFor cfg snaps k = [] := hpc.eq_nil
      unfold winnerFor at hw
      rw [hc] at hw
      cases hw
    · obtain ⟨hmem, hmin⟩ := resolveWinner_spec (hw : resolveWinner _ = some w)
      obtain ⟨hmem', hmin'⟩ := resolveWinner_spec (hw' : resolveWinner _ = some w')
      have hw_in' : w ∈ candidatesFor cfg snaps' k := hpc.mem_iff.mp hmem
      have hw'_in : w' ∈ candidatesFor cfg snaps k := hpc.mem_iff.mpr hmem'
      have h1 : precedes w' w = false := hmin w' hw'_in
      have h2 : precedes w w' = false := hmin' w hw_in'
      obtain ⟨e1, e2, e3⟩ := precedes_total h2 h1
      have hw_snaps : w ∈ snaps := (List.mem_filter.mp hmem).1
      have hw'_snaps : w' ∈ snaps := (List.mem_filter.mp hw'_in).1
      rw [huniq w hw_snaps w' hw'_snaps e1 e2 e3]

/-- Witness for the amended C3: two snapshots with distinct source
ranks, presented in both orders. -/
theorem C3_resolver_order_independence_witness :
    winnerFor cfgUSD [mkSnap 1 "tcgplayer" 0 "USD" "market" 1000, snapSA]
        keyW =
      winnerFor cfgUSD [snapSA, mkSnap 1 "tcgplayer" 0 "USD" "market" 1000]
        keyW :=
  C3_resolver_order_independence cfgUSD _ _ keyW (List.Perm.swap _ _ _)
    (by decide)

theorem inPartition_eq_false_of_date_ne {k : DayKey} {s : Snapshot}
    (h : s.as_of_date ≠ k.as_of_date) : inPartition k s = false := by
  simp [inPartition, h]

theorem filter_erase_of_neg {p : Snapshot → Bool} {x : Snapshot}
    (l : List Snapshot) (hx : p x = false) :
    (l.erase x).filter p = l.filter p := by
  induction l with
  | nil => rfl
  | cons b l ih =>
    by_cases hbx : b = x
    · subst hbx
      rw [List.erase_cons_head]
      rw [List.filter_cons_of_neg (by simp [hx])]
    · rw [List.erase_cons_tail (by simp [hbx])]
      rw [List.filter_cons, List.filter_cons, ih]

/-- C5: the Daily Price emitted for an (item, currency, date) key is a
function of that date's snapshots only: adding a snapshot of a different
date (at either end of the presented rows), or removing one, never
changes the emitted row; in particular snapshots dated day D never
influence the row for day D+1 or D-1. -/
theorem C5_partition_isolation (cfg : ScopeCfg) (snaps : List Snapshot)
    (k : DayKey) (extra : Snapshot) (hd : extra.as_of_date ≠ k.as_of_date) :
    dailyRowFor cfg (extra :: snaps) k = dailyRowFor cfg snaps k ∧
    dailyRowFor cfg (snaps ++ [extra]) k = dailyRowFor cfg snaps k ∧
    dailyRowFor cfg (snaps.erase extra) k = dailyRowFor cfg snaps k := by
  have hpe : (fun s => inScope cfg s && inPartition k s) extra = false := by
    simp [inPartition_eq_false_of_date_ne hd]
  refine ⟨?_, ?_, ?_⟩
  · unfold dailyRowFor winnerFor candidatesFor
    rw [List.filter_cons_of_neg (by simp [hpe])]
  · unfold dailyRowFor winnerFor candidatesFor
    rw [List.filter_append]
    rw [List.filter_cons_of_neg (by simp [hpe])]
    rw [List.filter_nil, List.append_nil]
  · unfold dailyRowFor winnerFor candidatesFor
    rw [filter_erase_of_neg snaps hpe]

/-- Witness for C5: a snapshot dated day 1 does not affect the daily
price of day 0. -/
theorem C5_partition_isolation_witness :
    dailyRowFor cfgUSD (mkSnap 1 "scryfall" 1 "USD" "market" 999 :: [snapSA])
        keyW =
      dailyRowFor cfgUSD [snapSA] keyW ∧
    dailyRowFor cfgUSD ([snapSA] ++ [mkSnap 1 "scryfall" 1 "USD" "market" 999])
        keyW =
      dailyRowFor cfgUSD [snapSA] keyW ∧
    dailyRowFor cfgUSD ([snapSA].erase (mkSnap 1 "scryfall" 1 "USD" "market" 999))
        keyW =
      dailyRowFor cfgUSD [snapSA] keyW :=
  C5_partition_isolation cfgUSD [snapSA] keyW
    (mkSnap 1 "scryfall" 1 "USD" "market" 999) (by decide)

/-- C9: the resolver's scope is either the single explicit date (without
`--all-dates`) or, with `--all-dates`, a date range whose inclusive
lower/upper bounds are each optional and independently combinable; a key
emits a Daily Price row exactly when at least one snapshot of that key
passes the scope filter. -/
theorem C9_selection_scope (cfg : ScopeCfg) (snaps : List Snapshot)
    (k : DayKey) :
    ((dailyRowFor cfg snaps k).isSome ↔
      ∃ s ∈ snaps, inScope cfg s = true ∧ inPartition k s = true) ∧
    (∀ cur d lo hi s, inScope ⟨cur, false, d, lo, hi⟩ s = true ↔
      (s.currency = cur ∧ s.as_of_date = d)) ∧
    (∀ cur d lo s, inScope ⟨cur, true, d, some lo, none⟩ s = true ↔
      (s.currency = cur ∧ lo ≤ s.as_of_date)) ∧
    (∀ cur d hi s, inScope ⟨cur, true, d, none, some hi⟩ s = true ↔
      (s.currency = cur ∧ s.as_of_date ≤ hi)) ∧
    (∀ cur d lo hi s, inScope ⟨cur, true, d, some lo, some hi⟩ s = true ↔
      (s.currency = cur ∧ lo ≤ s.as_of_date ∧ s.as_of_date ≤ hi)) ∧
    (∀ cur d s, inScope ⟨cur, true, d, none, none⟩ s = true ↔
      s.currency = cur) := by
  refine ⟨?_, ?_, ?_, ?_, ?_, ?_⟩
  · unfold dailyRowFor winnerFor
    rw [Option.isSome_map']
    cases hc : candidatesFor cfg snaps k with
    | nil =>
      simp only [resolveWinner, Option.isSome_none, Bool.false_eq_true,
        false_iff]
      intro ⟨s, hs, h1, h2⟩
      have : s ∈ candidatesFor cfg snaps k := by
        unfold candidatesFor
        rw [List.mem_filter]
        exact ⟨hs, by simp [h1, h2]⟩
      rw [hc] at this
      cases this
    | cons a rest =>
      simp only [resolveWinner, Option.isSome_some, true_iff]
      have ha : a ∈ candidatesFor cfg snaps k := by
        rw [hc]
        exact List.mem_cons_self a rest
      obtain ⟨hs, hp⟩ := List.mem_filter.mp ha
      rw [Bool.and_eq_true] at hp
      exact ⟨a, hs, hp.1, hp.2⟩
  · intro cur d lo hi s
    simp [inScope]
  · intro cur d lo s
    simp [inScope]
  · intro cur d hi s
    simp [inScope]
  · intro cur d lo hi s
    simp [inScope, and_assoc]
  · intro cur d s
    simp [inScope]

theorem keyOf_set (r b : Snapshot) :
    keyOf { r with value_cents := b.value_cents, raw := b.raw } = keyOf r :=
  rfl

theorem updatePhase_map_keyOf (t batch : List Snapshot) :
    (updatePhase t batch).map keyOf = t.map keyOf := by
  unfold updatePhase
  rw [List.map_map]
  apply List.map_congr_left
  intro r _
  simp only [Function.comp_apply]
  cases h : batch.find? (fun b => sameKey b r) <;> rfl

theorem updatePhase_append (l1 l2 batch : List Snapshot) :
    updatePhase (l1 ++ l2) batch = updatePhase l1 batch ++ updatePhase l2 batch := by
  unfold updatePhase
  exact List.map_append _ l1 l2

theorem find?_sameKey_self {batch : List Snapshot} (hnd : keysNodup batch)
    {b : Snapshot} (hb : b ∈ batch) :
    batch.find? (fun x => sameKey x b) = some b := by
  induction batch with
  | nil => cases hb
  | cons c rest ih =>
    unfold keysNodup at hnd
    rw [List.map_cons, List.nodup_cons] at hnd
    rcases hcb : sameKey c b with _ | _
    · simp only [List.find?, hcb]
      have hbc : b ≠ c := by
        intro he
        subst he
        simp [sameKey] at hcb
      have hbr : b ∈ rest := by
        rcases List.mem_cons.mp hb with he | h
        · exact absurd he hbc
        · exact h
      exact ih hnd.2 hbr
    · simp only [List.find?, hcb]
      have hk : keyOf c = keyOf b := by
        simpa [sameKey] using hcb
      rcases List.mem_cons.mp hb with he | h
      · exact congrArg some he.symm
      · exact absurd (hk ▸ List.mem_map_of_mem keyOf h) hnd.1

theorem updatePhase_idem (t batch : List Snapshot) :
    updatePhase (updatePhase t batch) batch = updatePhase t batch := by
  unfold updatePhase
  rw [List.map_map]
  apply List.map_congr_left
  intro r _
  simp only [Function.comp_apply]
  cases h : batch.find? (fun b => sameKey b r) with
  | none => simp [h]
  | some b =>
    have h2 : batch.find?
        (fun x => sameKey x { r with value_cents := b.value_cents, raw := b.raw }) =
        some b := h
    simp only [h, h2]

theorem updatePhase_of_mem_batch {batch : List Snapshot} (hnd : keysNodup batch)
    {l : List Snapshot} (hl : ∀ x ∈ l, x ∈ batch) :
    updatePhase l batch = l := by
  unfold updatePhase
  conv_rhs => rw [← List.map_id l]
  apply List.map_congr_left
  intro x hx
  rw [find?_sameKey_self hnd (hl x hx)]
  rfl

theorem mem_insertRows {t batch : List Snapshot} {b : Snapshot} :
    b ∈ insertRows t batch ↔
      b ∈ batch ∧ t.any (fun r => sameKey r b) = false := by
  unfold insertRows
  rw [List.mem_filter]
  simp

theorem sameKey_self (b : Snapshot) : sameKey b b = true := by
  simp [sameKey]

theorem normalizeRun_covers {t batch : List Snapshot} {b : Snapshot}
    (hb : b ∈ batch) :
    (normalizeRun t batch).any (fun r => sameKey r b) = true := by
  unfold normalizeRun
  rw [List.any_append]
  rcases h1 : (updatePhase t batch).any (fun r => sameKey r b) with _ | _
  · have hbin : b ∈ insertRows (updatePhase t batch) batch :=
      mem_insertRows.mpr ⟨hb, h1⟩
    rw [Bool.false_or]
    exact List.any_of_mem hbin (sameKey_self b)
  · rw [Bool.true_or]

theorem fieldRow_key {d : Int} {it : SrcItem} {sp : FieldSpec} {r : Snapshot}
    (h : fieldRow d it sp = .ok (some r)) : keyOf r = specKey d it sp := by
  unfold fieldRow at h
  cases hfc : fieldCents (getField it.prices sp.key) with
  | error e =>
    rw [hfc] at h
    cases h
  | ok o =>
    rw [hfc] at h
    cases o with
    | none => cases h
    | some v =>
      by_cases hv : 0 < v
      · simp only [if_pos hv] at h
        injection h with h2
        injection h2 with h3
        rw [← h3]
        rfl
      · simp only [if_neg hv] at h
        cases h

theorem rowsForFields_keys {d : Int} {it : SrcItem} :
    ∀ {sps : List FieldSpec} {rs : List Snapshot},
      rowsForFields d it sps = .ok rs →
      List.Sublist (rs.map keyOf) (sps.map (specKey d it)) := by
  intro sps
  induction sps with
  | nil =>
    intro rs h
    unfold rowsForFields at h
    injection h with h2
    rw [← h2]
    exact List.Sublist.refl _
  | cons sp rest ih =>
    intro rs h
    unfold rowsForFields at h
    cases hfr : fieldRow d it sp with
    | error e =>
      rw [hfr] at h
      cases h
    | ok o =>
      rw [hfr] at h
      cases hrr : rowsForFields d it rest with
      | error e =>
        rw [hrr] at h
        cases h
      | ok rs' =>
        rw [hrr] at h
        injection h with h2
        rw [← h2, List.map_append, List.map_cons]
        cases o with
        | none => exact List.Sublist.cons _ (ih hrr)
        | some r =>
          have hk : keyOf r = specKey d it sp := fieldRow_key hfr
          simp only [Option.toList_some, List.map_cons, List.map_nil,
            List.singleton_append, hk]
          exact List.Sublist.cons₂ _ (ih hrr)

theorem specKeys_nodup (d : Int) (it : SrcItem) :
    (fieldSpecs.map (specKey d it)).Nodup := by
  simp [fieldSpecs, specKey, List.nodup_cons, SnapKey.mk.injEq]

theorem rowsForFields_item_id {d : Int} {it : SrcItem} {sps : List FieldSpec}
    {rs : List Snapshot} (h : rowsForFields d it sps = .ok rs) :
    ∀ r ∈ rs, r.market_item_id = it.market_item_id := by
  intro r hr
  have hmem : keyOf r ∈ sps.map (specKey d it) :=
    (rowsForFields_keys h).subset (List.mem_map_of_mem keyOf hr)
  obtain ⟨sp, _, hsp⟩ := List.mem_map.mp hmem
  have hid : (keyOf r).market_item_id = it.market_item_id := by
    rw [← hsp]
    rfl
  exact hid

theorem buildRows_item_ids {d : Int} :
    ∀ {items : List SrcItem} {batch : List Snapshot},
      buildRows d items = .ok batch →
      ∀ r ∈ batch, r.market_item_id ∈
        items.map (fun it => it.market_item_id) := by
  intro items
  induction items with
  | nil =>
    intro batch h r hr
    unfold buildRows at h
    injection h with h2
    rw [← h2] at hr
    cases hr
  | cons it rest ih =>
    intro batch h r hr
    unfold buildRows at h
    cases hit : rowsForItem d it with
    | error e =>
      rw [hit] at h
      cases h
    | ok rs =>
      rw [hit] at h
      cases hrest : buildRows d rest with
      | error e =>
        rw [hrest] at h
        cases h
      | ok rest' =>
        rw [hrest] at h
        injection h with h2
        rw [← h2] at hr
        rw [List.map_cons]
        rcases List.mem_append.mp hr with h1 | h1
        · rw [rowsForFields_item_id hit r h1]
          exact List.mem_cons_self _ _
        · exact List.mem_cons_of_mem _ (ih hrest r h1)

theorem buildRows_keysNodup {d : Int} :
    ∀ {items : List SrcItem} {batch : List Snapshot},
      buildRows d items = .ok batch →
      (items.map (fun it => it.market_item_id)).Nodup →
      keysNodup batch := by
  intro items
  induction items with
  | nil =>
    intro batch h _
    unfold buildRows at h
    injection h with h2
    rw [← h2]
    exact List.nodup_nil
  | cons it rest ih =>
    intro batch h hids
    unfold buildRows at h
    cases hit : rowsForItem d it with
    | error e =>
      rw [hit] at h
      cases h
    | ok rs =>
      rw [hit] at h
      cases hrest : buildRows d rest with
      | error e =>
        rw [hrest] at h
        cases h
      | ok rest' =>
        rw [hrest] at h
        injection h with h2
        rw [List.map_cons, List.nodup_cons] at hids
        unfold keysNodup
        rw [← h2, List.map_append]
        apply List.Nodup.append
        · exact ((rowsForFields_keys hit).nodup (specKeys_nodup d it))
        · exact ih hrest hids.2
        · intro x hx1 hx2
          obtain ⟨r1, hr1, hk1⟩ := List.mem_map.mp hx1
          obtain ⟨r2, hr2, hk2⟩ := List.mem_map.mp hx2
          have e1 : r1.market_item_id = it.market_item_id :=
            rowsForFields_item_id hit r1 hr1
          have e2 : r2.market_item_id ∈ rest.map (fun x => x.market_item_id) :=
            buildRows_item_ids hrest r2 hr2
          have ekey : r1.market_item_id = r2.market_item_id := by
            have : (keyOf r1).market_item_id = (keyOf r2).market_item_id := by
              rw [hk1, hk2]
            exact this
          rw [← ekey, e1] at e2
          exact hids.1 e2

theorem updatePhase_normalizeRun (t batch : List Snapshot)
    (hnd : keysNodup batch) :
    updatePhase (normalizeRun t batch) batch = normalizeRun t batch := by
  unfold normalizeRun
  rw [updatePhase_append, updatePhase_idem]
  congr 1
  apply updatePhase_of_mem_batch hnd
  intro x hx
  exact (mem_insertRows.mp hx).1

theorem insertRows_normalizeRun (t batch : List Snapshot) :
    insertRows (normalizeRun t batch) batch = [] := by
  unfold insertRows
  rw [List.filter_eq_nil_iff]
  intro b hb
  simp [normalizeRun_covers hb]

/-- C2: with the batch computed by the Snapshot Normalizer from source
items with distinct item identifiers, a second identical run is a no-op
(the table after two runs equals the table after one, so every existing
row's value and raw payload are unchanged), the second run's insert
phase inserts zero rows, and a single update-then-insert run over a
duplicate-free table never creates two rows for one identity key. -/
theorem C2_normalizer_idempotent (t : List Snapshot) (src : List SrcItem)
    (d : Int) (batch : List Snapshot) (hok : buildRows d src = .ok batch)
    (hids : (src.map (fun it => it.market_item_id)).Nodup)
    (ht : keysNodup t) :
    normalizeRun (normalizeRun t batch) batch = normalizeRun t batch ∧
    insertRows (updatePhase (normalizeRun t batch) batch) batch = [] ∧
    keysNodup (normalizeRun t batch) := by
  have hnd : keysNodup batch := buildRows_keysNodup hok hids
  have hup : updatePhase (normalizeRun t batch) batch = normalizeRun t batch :=
    updatePhase_normalizeRun t batch hnd
  refine ⟨?_, ?_, ?_⟩
  · show updatePhase (normalizeRun t batch) batch ++
      insertRows (updatePhase (normalizeRun t batch) batch) batch =
        normalizeRun t batch
    rw [hup, insertRows_normalizeRun, List.append_nil]
  · rw [hup]
    exact insertRows_normalizeRun t batch
  · unfold keysNodup normalizeRun
    rw [List.map_append]
    apply List.Nodup.append
    · rw [updatePhase_map_keyOf]
      exact ht
    · exact ((List.filter_sublist _).map keyOf).nodup hnd
    · intro x hx1 hx2
      rw [updatePhase_map_keyOf] at hx1
      obtain ⟨b, hb, hkb⟩ := List.mem_map.mp hx2
      obtain ⟨hbatch, hany⟩ := mem_insertRows.mp hb
      have hrk : x ∈ (updatePhase t batch).map keyOf := by
        rw [updatePhase_map_keyOf]
        exact hx1
      obtain ⟨r1, hr1, hkr1⟩ := List.mem_map.mp hrk
      have : sameKey r1 b = false := by
        rcases h : sameKey r1 b with _ | _
        · rfl
        · have htrue : (updatePhase t batch).any (fun r => sameKey r b) = true :=
            List.any_eq_true.mpr ⟨r1, hr1, h⟩
          rw [htrue] at hany
          cases hany
      have hne : keyOf r1 ≠ keyOf b := by
        simpa [sameKey] using this
      exact hne (hkr1.trans hkb.symm)

/-- Witness for C2: the one-item source `srcW` over an empty table. -/
theorem C2_normalizer_idempotent_witness :
    normalizeRun (normalizeRun [] batchW) batchW = normalizeRun [] batchW ∧
    insertRows (updatePhase (normalizeRun [] batchW) batchW) batchW = [] ∧
    keysNodup (normalizeRun [] batchW) :=
  C2_normalizer_idempotent [] srcW 0 batchW rfl (by decide) (by decide)

theorem floor_add_half (N D : Nat) (hD : 0 < D) :
    ⌊(N : ℚ) / (D : ℚ) + 1 / 2⌋ = ((2 * N + D) / (2 * D) : ℕ) := by
  have hD' : (D : ℚ) ≠ 0 := Nat.cast_ne_zero.mpr (Nat.pos_iff_ne_zero.mp hD)
  have h1 : (N : ℚ) / (D : ℚ) + 1 / 2 =
      (((2 * N + D : ℕ) : ℤ) : ℚ) / ((2 * D : ℕ) : ℚ) := by
    push_cast
    field_simp
    ring
  rw [h1, Rat.floor_intCast_div_natCast]
  push_cast [Int.natCast_div]
  ring

theorem roundCents_eq_roundHalfAway (d : DecNum) :
    roundCents d = roundHalfAway (decVal d * 100) := by
  obtain ⟨neg, ip, fp, fl⟩ := d
  have hden : (0:ℕ) < 10 ^ fl := pow_pos (by norm_num) fl
  have hden' : ((10 ^ fl : ℕ) : ℚ) ≠ 0 := Nat.cast_ne_zero.mpr (Nat.pos_iff_ne_zero.mp hden)
  have hq : ((ip : ℚ) + (fp : ℚ) / (10 : ℚ) ^ fl) * 100 =
      ((100 * (ip * 10 ^ fl + fp) : ℕ) : ℚ) / ((10 ^ fl : ℕ) : ℚ) := by
    push_cast
    field_simp
    ring
  cases neg with
  | false =>
    unfold roundCents roundHalfAway decVal
    simp only [Bool.false_eq_true, if_false, one_mul]
    rw [if_pos (by positivity)]
    rw [hq, floor_add_half _ _ hden]
  | true =>
    unfold roundCents roundHalfAway decVal
    simp only [if_true, neg_one_mul]
    rcases Nat.eq_zero_or_pos (100 * (ip * 10 ^ fl + fp)) with hN | hN
    · have hzero : ((ip : ℚ) + (fp : ℚ) / (10 : ℚ) ^ fl) * 100 = 0 := by
        rw [hq, hN]
        simp
      rw [show -((ip : ℚ) + (fp : ℚ) / (10 : ℚ) ^ fl) * 100 = 0 by
        rw [neg_mul, hzero, neg_zero]]
      rw [if_pos le_rfl]
      have : (2 * (100 * (ip * 10 ^ fl + fp)) + 10 ^ fl) / (2 * 10 ^ fl) = 0 := by
        rw [hN]
        exact Nat.div_eq_of_lt (by omega)
      rw [this]
      norm_num
    · have hpos : 0 < ((ip : ℚ) + (fp : ℚ) / (10 : ℚ) ^ fl) * 100 := by
        rw [hq]
        positivity
      rw [if_neg (not_le.mpr (by rw [neg_mul]; exact neg_neg_of_pos hpos))]
      rw [show -(-((ip : ℚ) + (fp : ℚ) / (10 : ℚ) ^ fl) * 100) =
        ((ip : ℚ) + (fp : ℚ) / (10 : ℚ) ^ fl) * 100 by ring]
      rw [hq, floor_add_half _ _ hden]

theorem fieldRow_pos {d : Int} {it : SrcItem} {sp : FieldSpec} {r : Snapshot}
    (h : fieldRow d it sp = .ok (some r)) : 0 < r.value_cents := by
  unfold fieldRow at h
  cases hfc : fieldCents (getField it.prices sp.key) with
  | error e =>
    rw [hfc] at h
    cases h
  | ok o =>
    rw [hfc] at h
    cases o with
    | none => cases h
    | some v =>
      by_cases hv : 0 < v
      · simp only [if_pos hv] at h
        injection h with h2
        injection h2 with h3
        rw [← h3]
        exact hv
      · simp only [if_neg hv] at h
        cases h

theorem rowsForFields_pos {d : Int} {it : SrcItem} :
    ∀ {sps : List FieldSpec} {rs : List Snapshot},
      rowsForFields d it sps = .ok rs → ∀ r ∈ rs, 0 < r.value_cents := by
  intro sps
  induction sps with
  | nil =>
    intro rs h r hr
    unfold rowsForFields at h
    injection h with h2
    rw [← h2] at hr
    cases hr
  | cons sp rest ih =>
    intro rs h r hr
    unfold rowsForFields at h
    cases hfr : fieldRow d it sp with
    | error e =>
      rw [hfr] at h
      cases h
    | ok o =>
      rw [hfr] at h
      cases hrr : rowsForFields d it rest with
      | error e =>
        rw [hrr] at h
        cases h
      | ok rs' =>
        rw [hrr] at h
        injection h with h2
        rw [← h2] at hr
        rcases List.mem_append.mp hr with h1 | h1
        · cases o with
          | none => cases h1
          | some r0 =>
            rw [Option.toList_some] at h1
            rcases List.mem_singleton.mp h1 with rfl
            exact fieldRow_pos hfr
        · exact ih hrr r h1

theorem buildRows_pos {d : Int} :
    ∀ {items : List SrcItem} {batch : List Snapshot},
      buildRows d items = .ok batch → ∀ r ∈ batch, 0 < r.value_cents := by
  intro items
  induction items with
  | nil =>
    intro batch h r hr
    unfold buildRows at h
    injection h with h2
    rw [← h2] at hr
    cases hr
  | cons it rest ih =>
    intro batch h r hr
    unfold buildRows at h
    cases hit : rowsForItem d it with
    | error e =>
      rw [hit] at h
      cases h
    | ok rs =>
      rw [hit] at h
      cases hrest : buildRows d rest with
      | error e =>
        rw [hrest] at h
        cases h
      | ok rest' =>
        rw [hrest] at h
        injection h with h2
        rw [← h2] at hr
        rcases List.mem_append.mp hr with h1 | h1
        · exact rowsForFields_pos hit r h1
        · exact ih hrest r h1

/-- C4 counterexample: a vendor field whose text strips to the non-empty
non-numeric string "." makes the numeric cast raise and aborts the whole
batch: with the malformed item present no snapshot rows at all are
produced, while the same healthy second item alone normalizes fine. -/
theorem C4_counterexample :
    buildRows 0 [⟨1, ⟨some ".", none, none, none, none⟩⟩, ⟨2, pricesW⟩] =
      .error () ∧
    buildRows 0 [⟨2, pricesW⟩] =
      .ok [⟨2, "scryfall", 0, "USD", "market", none, 1234, (pricesW, "usd")⟩] :=
  ⟨by decide, by decide⟩

/-- C4 (amended): a vendor price field that is missing, strips to the
empty string, or rounds to a non-positive cent amount produces no
snapshot row and degrades locally (the remaining fields still
contribute, and every row of a successful batch has a strictly positive
value); however a field whose text strips to a non-empty string that is
not a valid numeric literal raises and aborts the entire batch. -/
theorem C4_absent_field_handling (d : Int) :
    (∀ (it : SrcItem) (sp : FieldSpec), getField it.prices sp.key = none →
      fieldRow d it sp = .ok none) ∧
    (∀ (it : SrcItem) (sp : FieldSpec) (s : String),
      getField it.prices sp.key = some s → (stripNonNumeric s).data = [] →
      fieldRow d it sp = .ok none) ∧
    (∀ (it : SrcItem) (sp : FieldSpec) (s : String) (dn : DecNum),
      getField it.prices sp.key = some s → (stripNonNumeric s).data ≠ [] →
      parseNumeric (stripNonNumeric s).data = some dn → roundCents dn ≤ 0 →
      fieldRow d it sp = .ok none) ∧
    (∀ (items : List SrcItem) (batch : List Snapshot),
      buildRows d items = .ok batch → ∀ r ∈ batch, 0 < r.value_cents) ∧
    (∀ (it : SrcItem) (sp : FieldSpec) (rest : List FieldSpec),
      fieldRow d it sp = .ok none →
      rowsForFields d it (sp :: rest) = rowsForFields d it rest) := by
  refine ⟨?_, ?_, ?_, ?_, ?_⟩
  · intro it sp h
    unfold fieldRow
    rw [h]
    rfl
  · intro it sp s h h2
    unfold fieldRow fieldCents
    rw [h]
    simp only [h2, if_pos]
  · intro it sp s dn h h2 h3 h4
    unfold fieldRow fieldCents
    rw [h]
    simp only [h2, if_neg, h3]
    show Except.ok (if 0 < roundCents dn then some (mkRow d it sp (roundCents dn)) else none) =
      Except.ok none
    rw [if_neg (not_lt.mpr h4)]
  · intro items batch h
    exact buildRows_pos h
  · intro it sp rest h
    show (match fieldRow d it sp, rowsForFields d it rest with
      | .error e, _ => .error e
      | .ok _, .error e => .error e
      | .ok o, .ok rs => Except.ok (o.toList ++ rs)) = rowsForFields d it rest
    rw [h]
    cases hr : rowsForFields d it rest <;> rfl

/-- Witness for the amended C4: an absent field, a field of pure text,
and a zero field each produce no row; the healthy singleton batch has
only positive values. -/
theorem C4_absent_field_handling_witness :
    fieldRow 0 ⟨1, ⟨none, none, none, none, none⟩⟩ ⟨"usd", "USD", "market"⟩ =
      .ok none ∧
    fieldRow 0 ⟨1, ⟨some "N/A", none, none, none, none⟩⟩
      ⟨"usd", "USD", "market"⟩ = .ok none ∧
    fieldRow 0 ⟨1, ⟨some "0.00", none, none, none, none⟩⟩
      ⟨"usd", "USD", "market"⟩ = .ok none ∧
    ∀ r ∈ batchW, 0 < r.value_cents :=
  ⟨(C4_absent_field_handling 0).1 _ _ (by decide),
   (C4_absent_field_handling 0).2.1 _ _ "N/A" (by decide) (by decide),
   (C4_absent_field_handling 0).2.2.1 _ _ "0.00" ⟨false, 0, 0, 2⟩ (by decide)
     (by decide) (by decide) (by decide),
   (C4_absent_field_handling 0).2.2.2.1 srcW batchW rfl⟩

/-- C10: every normalizer invocation is all-or-nothing: either the batch
builds, neither statement fails, the update phase completes before the
insert phase's not-exists check runs (against the updated table), and
the run commits with exit code 0 — or the table is left exactly as it
was, and the process exits 1; no partially applied state is ever
visible. -/
theorem C10_normalizer_atomic (t : List Snapshot) (src : List SrcItem)
    (d : Int) (failUpd failIns : Bool) :
    (∃ batch, buildRows d src = .ok batch ∧ failUpd = false ∧
      failIns = false ∧
      runNormalizer t src d failUpd failIns =
        (updatePhase t batch ++ insertRows (updatePhase t batch) batch, 0)) ∨
    runNormalizer t src d failUpd failIns = (t, 1) := by
  unfold runNormalizer
  cases hb : buildRows d src with
  | error e => exact Or.inr rfl
  | ok batch =>
    cases failUpd with
    | true => exact Or.inr rfl
    | false =>
      cases failIns with
      | true => exact Or.inr rfl
      | false => exact Or.inl ⟨batch, rfl, rfl, rfl, rfl⟩



/-- C6: the Sale-Comp Rollup computes continuous-interpolation
percentiles and the exact count: the group [10, 20, 30, 40] yields
median 25, p25 = 17.5, p75 = 32.5, count 4 (with last sale 40 at
timestamp 8 and grade C), and a one-observation group yields a row whose
median and both quartiles all equal that single (two-decimal) value,
with count 1 and the lowest grade. -/
theorem C6_rollup_percentiles :
    rollupGroup [mkSale "k" "g" 5 10, mkSale "k" "g" 6 20,
        mkSale "k" "g" 7 30, mkSale "k" "g" 8 40] =
      some ⟨"k", "g", 25, 35 / 2, 65 / 2, 40, 8, 4, "C"⟩ ∧
    (∀ (v : ℚ), round2 v = v → ∀ (ck gr : String) (t : Int),
      rollupGroup [mkSale ck gr t v] = some ⟨ck, gr, v, v, v, v, t, 1, "D"⟩) := by
  constructor
  · norm_num [rollupGroup, percentileCont, round2, roundHalfAway, lastSaleOf,
      laterSale, confidenceGrade, mkSale, List.insertionSort,
      List.orderedInsert, List.getD, List.foldl, Int.toNat_ofNat]
    norm_num [show Int.toNat 2 = 2 by rfl, show Int.toNat 1 = 1 by rfl]
  · intro v hv ck gr t
    norm_num [rollupGroup, percentileCont, mkSale, List.insertionSort,
      List.orderedInsert, List.getD, lastSaleOf, confidenceGrade, hv]

/-- Witness for C6 at the singleton group with value 42. -/
theorem C6_rollup_percentiles_witness :
    rollupGroup [mkSale "c" "g" 3 42] =
      some ⟨"c", "g", 42, 42, 42, 42, 3, 1, "D"⟩ :=
  C6_rollup_percentiles.2 42 (by norm_num [round2, roundHalfAway]) "c" "g" 3

/-- C7: the rollup's confidence grade is a deterministic step function
of the observation count, inclusive on the higher grade (count >= 10
gives A, 5 <= count < 10 gives B, 2 <= count < 5 gives C, count < 2
gives D); counts 1, 2, 5, 10 hit the four grades in ascending order, the
grade is monotone in the count, and each emitted row carries the grade
of its exact count. -/
theorem C7_confidence_grades :
    (∀ n, 10 ≤ n → confidenceGrade n = "A") ∧
    (∀ n, 5 ≤ n → n < 10 → confidenceGrade n = "B") ∧
    (∀ n, 2 ≤ n → n < 5 → confidenceGrade n = "C") ∧
    (∀ n, n < 2 → confidenceGrade n = "D") ∧
    (confidenceGrade 1 = "D" ∧ confidenceGrade 2 = "C" ∧
      confidenceGrade 5 = "B" ∧ confidenceGrade 10 = "A") ∧
    (gradeOrd (confidenceGrade 1) < gradeOrd (confidenceGrade 2) ∧
      gradeOrd (confidenceGrade 2) < gradeOrd (confidenceGrade 5) ∧
      gradeOrd (confidenceGrade 5) < gradeOrd (confidenceGrade 10)) ∧
    (∀ m n, m ≤ n →
      gradeOrd (confidenceGrade m) ≤ gradeOrd (confidenceGrade n)) ∧
    (∀ (s : Sale) (rest : List Sale) (row : RollupRow),
      rollupGroup (s :: rest) = some row →
      row.confidence = confidenceGrade row.sales_count_180d ∧
      row.sales_count_180d = (s :: rest).length) := by
  refine ⟨?_, ?_, ?_, ?_, by decide, by decide, ?_, ?_⟩
  · intro n h
    unfold confidenceGrade
    rw [if_pos h]
  · intro n h5 h10
    unfold confidenceGrade
    rw [if_neg (by omega), if_pos h5]
  · intro n h2 h5
    unfold confidenceGrade
    rw [if_neg (by omega), if_neg (by omega), if_pos h2]
  · intro n h
    unfold confidenceGrade
    rw [if_neg (by omega), if_neg (by omega), if_neg (by omega)]
  · have hval : ∀ k, gradeOrd (confidenceGrade k) =
        if 10 ≤ k then 3 else if 5 ≤ k then 2 else if 2 ≤ k then 1 else 0 := by
      intro k
      unfold confidenceGrade
      split_ifs <;> rfl
    intro m n h
    rw [hval, hval]
    split_ifs <;> omega
  · intro s rest row h
    simp only [rollupGroup] at h
    injection h with h2
    rw [← h2]
    exact ⟨rfl, rfl⟩

/-- Witness for C7 at counts 11, 7, 3, 0. -/
theorem C7_confidence_grades_witness :
    confidenceGrade 11 = "A" ∧ confidenceGrade 7 = "B" ∧
    confidenceGrade 3 = "C" ∧ confidenceGrade 0 = "D" :=
  ⟨C7_confidence_grades.1 11 (by decide),
   C7_confidence_grades.2.1 7 (by decide) (by decide),
   C7_confidence_grades.2.2.1 3 (by decide) (by decide),
   C7_confidence_grades.2.2.2.1 0 (by decide)⟩

theorem laterSale_pos {a b : Sale} (h : a.sold_at < b.sold_at) :
    laterSale a b = b := by
  simp [laterSale, h]

theorem laterSale_neg {a b : Sale} (h : ¬a.sold_at < b.sold_at) :
    laterSale a b = a := by
  simp [laterSale, h]

theorem foldl_laterSale_mem (rest : List Sale) (s : Sale) :
    rest.foldl laterSale s = s ∨ rest.foldl laterSale s ∈ rest := by
  induction rest generalizing s with
  | nil => exact Or.inl rfl
  | cons b rest ih =>
    rw [List.foldl_cons]
    by_cases hbs : s.sold_at < b.sold_at
    · rw [laterSale_pos hbs]
      rcases ih b with h | h
      · rw [h]
        exact Or.inr (List.mem_cons_self b rest)
      · exact Or.inr (List.mem_cons_of_mem b h)
    · rw [laterSale_neg hbs]
      rcases ih s with h | h
      · exact Or.inl h
      · exact Or.inr (List.mem_cons_of_mem b h)

theorem foldl_laterSale_max (rest : List Sale) (s x : Sale)
    (hx : x = s ∨ x ∈ rest) :
    x.sold_at ≤ (rest.foldl laterSale s).sold_at := by
  induction rest generalizing s x with
  | nil =>
    rcases hx with rfl | h
    · exact le_rfl
    · cases h
  | cons b rest ih =>
    rw [List.foldl_cons]
    rcases hx with rfl | hx
    · by_cases hbs : x.sold_at < b.sold_at
      · rw [laterSale_pos hbs]
        exact le_trans (le_of_lt hbs) (ih b b (Or.inl rfl))
      · rw [laterSale_neg hbs]
        exact ih x x (Or.inl rfl)
    · rcases List.mem_cons.mp hx with rfl | hx
      · by_cases hbs : s.sold_at < x.sold_at
        · rw [laterSale_pos hbs]
          exact ih x x (Or.inl rfl)
        · rw [laterSale_neg hbs]
          exact le_trans (not_lt.mp hbs) (ih s s (Or.inl rfl))
      · exact ih (laterSale s b) x (Or.inr hx)

/-- The selected last sale is a member of the group with maximal
timestamp. -/
theorem lastSaleOf_spec {l : List Sale} {w : Sale}
    (h : lastSaleOf l = some w) :
    w ∈ l ∧ ∀ x ∈ l, x.sold_at ≤ w.sold_at := by
  match l, h with
  | s :: rest, h =>
    have hw : rest.foldl laterSale s = w := by
      simpa [lastSaleOf] using h
    constructor
    · rcases foldl_laterSale_mem rest s with h1 | h1
      · rw [hw] at h1
        rw [h1]
        exact List.mem_cons_self s rest
      · rw [hw] at h1
        exact List.mem_cons_of_mem s h1
    · intro x hx
      rw [← hw]
      exact foldl_laterSale_max rest s x (by
        rcases List.mem_cons.mp hx with rfl | hx
        · exact Or.inl rfl
        · exact Or.inr hx)

theorem foldl_max_ge_init (rest : List Sale) (a : Int) :
    a ≤ rest.foldl (fun m x => max m x.sold_at) a := by
  induction rest generalizing a with
  | nil => exact le_rfl
  | cons b rest ih =>
    rw [List.foldl_cons]
    exact le_trans (le_max_left a b.sold_at) (ih _)

theorem foldl_max_ge_mem (rest : List Sale) (a : Int) :
    ∀ x ∈ rest, x.sold_at ≤ rest.foldl (fun m x => max m x.sold_at) a := by
  induction rest generalizing a with
  | nil =>
    intro x hx
    cases hx
  | cons b rest ih =>
    intro x hx
    rw [List.foldl_cons]
    rcases List.mem_cons.mp hx with rfl | hx
    · exact le_trans (le_max_right a x.sold_at) (foldl_max_ge_init rest _)
    · exact ih _ x hx

theorem foldl_max_choice (rest : List Sale) (a : Int) :
    rest.foldl (fun m x => max m x.sold_at) a = a ∨
      ∃ x ∈ rest, rest.foldl (fun m x => max m x.sold_at) a = x.sold_at := by
  induction rest generalizing a with
  | nil => exact Or.inl rfl
  | cons b rest ih =>
    rw [List.foldl_cons]
    rcases ih (max a b.sold_at) with h | ⟨x, hx, hfx⟩
    · rcases max_choice a b.sold_at with hm | hm
      · left
        rw [h, hm]
      · right
        exact ⟨b, List.mem_cons_self b rest, by rw [h, hm]⟩
    · right
      exact ⟨x, List.mem_cons_of_mem b hx, hfx⟩

/-- C8 (amended): the rollup's last-sale output is the price of a sale
with the maximal timestamp in the group and the reported timestamp is
that maximum; but the choice among several sales sharing the maximal
timestamp follows the presentation order of the rows (no stable
secondary key breaks the tie), so it is not the same sale on every
ordering of the same transaction set. -/
theorem C8_last_sale_selection (s : Sale) (rest : List Sale) (w : Sale)
    (h : lastSaleOf (s :: rest) = some w) :
    w ∈ s :: rest ∧ (∀ x ∈ s :: rest, x.sold_at ≤ w.sold_at) ∧
    (∀ row, rollupGroup (s :: rest) = some row →
      row.last_sale_usd = round2 w.sold_price_usd ∧
      row.last_sale_at = w.sold_at) := by
  obtain ⟨hmem, hmax⟩ := lastSaleOf_spec h
  refine ⟨hmem, hmax, ?_⟩
  intro row hrow
  simp only [rollupGroup] at hrow
  injection hrow with h2
  constructor
  · rw [← h2]
    show round2 (((lastSaleOf (s :: rest)).map
      (fun x => x.sold_price_usd)).getD 0) = round2 w.sold_price_usd
    rw [h]
    rfl
  · rw [← h2]
    show rest.foldl (fun m x => max m x.sold_at) s.sold_at = w.sold_at
    apply le_antisymm
    · rcases foldl_max_choice rest s.sold_at with hc | ⟨x, hx, hfx⟩
      · rw [hc]
        exact hmax s (List.mem_cons_self s rest)
      · rw [hfx]
        exact hmax x (List.mem_cons_of_mem s hx)
    · rcases List.mem_cons.mp hmem with hws | hw
      · rw [← hws] at hmax ⊢
        exact foldl_max_ge_init rest w.sold_at
      · exact foldl_max_ge_mem rest s.sold_at w hw

/-- Witness for the amended C8: a two-sale group whose later sale is
unique. -/
theorem C8_last_sale_selection_witness :
    mkSale "k" "g" 7 20 ∈ [mkSale "k" "g" 5 10, mkSale "k" "g" 7 20] ∧
    (∀ x ∈ [mkSale "k" "g" 5 10, mkSale "k" "g" 7 20],
      x.sold_at ≤ (mkSale "k" "g" 7 20).sold_at) ∧
    (∀ row, rollupGroup [mkSale "k" "g" 5 10, mkSale "k" "g" 7 20] = some row →
      row.last_sale_usd = round2 (mkSale "k" "g" 7 20).sold_price_usd ∧
      row.last_sale_at = (mkSale "k" "g" 7 20).sold_at) :=
  C8_last_sale_selection (mkSale "k" "g" 5 10) [mkSale "k" "g" 7 20]
    (mkSale "k" "g" 7 20) rfl

/-- C8 counterexample: two sales sharing the maximal timestamp but with
different prices; permuting the two input rows changes the reported
last-sale price, so the choice is not stable across run orders. -/
theorem C8_counterexample :
    ([mkSale "k" "g" 5 10, mkSale "k" "g" 5 20] : List Sale).Perm
      [mkSale "k" "g" 5 20, mkSale "k" "g" 5 10] ∧
    (rollupGroup [mkSale "k" "g" 5 10, mkSale "k" "g" 5 20]).map
        (fun r => r.last_sale_usd) ≠
      (rollupGroup [mkSale "k" "g" 5 20, mkSale "k" "g" 5 10]).map
        (fun r => r.last_sale_usd) := by
  constructor
  · exact List.Perm.swap _ _ _
  · norm_num [rollupGroup, lastSaleOf, laterSale, mkSale, round2,
      roundHalfAway, List.foldl, Option.getD]


end Pipeline
